import Mathlib

/-!
Shallow embedding of the numb_rs matrix library core (src/src/dense.rs,
src/src/symmetric.rs, src/src/numerics.rs) and proofs about it.

Rust `Vec<T>` indexing is fallible (it aborts on an out-of-range index), so
every indexed access is modelled with `Option`: `none` stands for the
out-of-bounds abort of the flat-sequence layer.  Machine unsigned integers are
modelled by `Nat`; the operations used by `gcd` (halving, guarded subtraction,
parity tests) are exact on `Nat` for every fixed-width unsigned type.
-/

namespace NumbRs

/-- `MatrixError` (src/src/matrix.rs, used throughout): the only declared
error kind is `Incompatibility`, produced by dimension-mismatched binary
operations. -/
inductive MatrixError where
  | Incompatibility
deriving DecidableEq

/-- `Dense<T>` (src/src/dense.rs): row-major flat storage `data` with row
count `m` and column count `n`. -/
structure Dense (T : Type) where
  data : List T
  m : Nat
  n : Nat
deriving DecidableEq

/-- `Index<[usize; 2]> for Dense<T>`: `&self.data[idx[1] + idx[0] * self.n]`.
The vector access is modelled fallibly: `none` is the out-of-bounds abort. -/
def Dense.get? {T : Type} (d : Dense T) (i j : Nat) : Option T :=
  d.data[j + i * d.n]?

/-- `IndexMut<[usize; 2]> for Dense<T>` followed by a store: writing `v` at
`[i, j]` updates flat offset `idx[1] + idx[0] * self.n`; an out-of-range
offset aborts (`none`). -/
def Dense.set? {T : Type} (d : Dense T) (i j : Nat) (v : T) : Option (Dense T) :=
  if j + i * d.n < d.data.length then
    some { d with data := d.data.set (j + i * d.n) v }
  else
    none

/-- `Matrix::size` for `Dense<T>`: `[self.m, self.n]`. -/
def Dense.size {T : Type} (d : Dense T) : List Nat :=
  [d.m, d.n]

/-- `DenseTranspose<'a, T>` (src/src/dense.rs): a non-owning view holding a
reference `inner` to a `Dense` plus its own dimension fields. -/
structure DenseTranspose (T : Type) where
  inner : Dense T
  m : Nat
  n : Nat

/-- `DenseTransposeMut<'a, T>`: the mutable transpose view. -/
structure DenseTransposeMut (T : Type) where
  inner : Dense T
  m : Nat
  n : Nat

/-- `IntoTranspose::t for Dense<T>`: builds the view with `m = self.n`,
`n = self.m`. -/
def Dense.t {T : Type} (d : Dense T) : DenseTranspose T :=
  ⟨d, d.n, d.m⟩

/-- `IntoTransposeMut::t_mut for Dense<T>`: builds the mutable view with
`m = self.n`, `n = self.m`. -/
def Dense.tMut {T : Type} (d : Dense T) : DenseTransposeMut T :=
  ⟨d, d.n, d.m⟩

/-- `Index<[usize; 2]> for DenseTranspose`: `&self.inner[[index[1], index[0]]]`. -/
def DenseTranspose.get? {T : Type} (v : DenseTranspose T) (i j : Nat) : Option T :=
  v.inner.get? j i

/-- `Index<[usize; 2]> for DenseTransposeMut`: `&self.inner[[index[1], index[0]]]`. -/
def DenseTransposeMut.get? {T : Type} (v : DenseTransposeMut T) (i j : Nat) : Option T :=
  v.inner.get? j i

/-- `IndexMut<[usize; 2]> for DenseTransposeMut` followed by a store: writing
at `[i, j]` on the view writes at `[j, i]` on the referenced matrix. -/
def DenseTransposeMut.set? {T : Type} (v : DenseTransposeMut T) (i j : Nat) (x : T) :
    Option (DenseTransposeMut T) :=
  (v.inner.set? j i x).map (fun d => ⟨d, v.m, v.n⟩)

/-- `Matrix::size` for `DenseTranspose`: the source delegates to the inner
matrix, `self.inner.size()`. -/
def DenseTranspose.size {T : Type} (v : DenseTranspose T) : List Nat :=
  v.inner.size

/-- `Matrix::size` for `DenseTransposeMut`: the source delegates to the inner
matrix, `self.inner.size()`. -/
def DenseTransposeMut.size {T : Type} (v : DenseTransposeMut T) : List Nat :=
  v.inner.size

/-- `iter().skip(start)` on the flat storage is `List.drop start`; this models
the subsequent `step_by(s)` adaptor: it yields the first element and then every
`s`-th element after it. -/
def stepped {T : Type} : List T → Nat → List T
  | [], _ => []
  | x :: xs, s => x :: stepped (xs.drop (s - 1)) s
termination_by l _ => l.length
decreasing_by
  simp only [List.length_drop, List.length_cons]
  omega

/-- `Matrix::into_vec` for `DenseTranspose` (and `DenseTransposeMut`):
`(0..self.m).flat_map(|i| self.inner.data.iter().skip(i).step_by(self.m))`. -/
def DenseTranspose.intoVec {T : Type} (v : DenseTranspose T) : List T :=
  (List.range v.m).flatMap (fun i => stepped (v.inner.data.drop i) v.m)

/-- `Matrix::into_vec` for `DenseTransposeMut`: same body as the read-only view. -/
def DenseTransposeMut.intoVec {T : Type} (v : DenseTransposeMut T) : List T :=
  (List.range v.m).flatMap (fun i => stepped (v.inner.data.drop i) v.m)

/-- `Symmetric<T>` (src/src/symmetric.rs): triangular storage `data` of
`n*(n+1)/2` elements and the side dimension `n`. -/
structure Symmetric (T : Type) where
  data : List T
  n : Nat
deriving DecidableEq

/-- The flat offset computed by `Index`/`IndexMut` for `Symmetric`:
`if i > j { i*(i+1)/2 + j } else { j*(j+1)/2 + i }`. -/
def symOffset (i j : Nat) : Nat :=
  if i > j then i * (i + 1) / 2 + j else j * (j + 1) / 2 + i

/-- `Index<[usize; 2]> for Symmetric<T>`: reads `self.data[x]` at the
triangular offset. -/
def Symmetric.get? {T : Type} (s : Symmetric T) (i j : Nat) : Option T :=
  s.data[symOffset i j]?

/-- `IndexMut<[usize; 2]> for Symmetric<T>` followed by a store. -/
def Symmetric.set? {T : Type} (s : Symmetric T) (i j : Nat) (v : T) :
    Option (Symmetric T) :=
  if symOffset i j < s.data.length then
    some { s with data := s.data.set (symOffset i j) v }
  else
    none

/-- `Mul<T> for Symmetric<T>`: `data.into_iter().map(|x| x * scalar)`. -/
def Symmetric.scalarMul {T : Type} [Mul T] (s : Symmetric T) (c : T) : Symmetric T :=
  { s with data := s.data.map (fun x => x * c) }

/-- Sequences `f 0, …, f (count-1)` in order, failing if any step fails; this
models an ascending `for` loop that pushes one value per iteration. -/
def optMapRange {α : Type} (f : Nat → Option α) : Nat → Option (List α)
  | 0 => some []
  | count + 1 => do
    let xs ← optMapRange f count
    let x ← f count
    pure (xs ++ [x])

/-- Folds `g` over `0, …, count-1` in order starting from `init`, failing if
any step fails; this models an ascending accumulating `for` loop. -/
def optFoldRange {α : Type} (g : α → Nat → Option α) (init : α) : Nat → Option α
  | 0 => some init
  | count + 1 => do
    let acc ← optFoldRange g init count
    g acc count

/-- The inner `k` loop of `Mul<&Dense<T>> for &Symmetric<T>`:
`out[[i,j]] = ZERO; for k in 0..self.n { out[[i,j]] += self[[i,k]] * rhs[[k,j]] }`. -/
def dotSD {T : Type} [Zero T] [Add T] [Mul T] (s : Symmetric T) (d : Dense T)
    (i j : Nat) : Option T :=
  optFoldRange
    (fun acc k => do
      let x ← s.get? i k
      let y ← d.get? k j
      pure (acc + x * y))
    0 s.n

/-- `Mul<&Dense<T>> for &Symmetric<T>` (src/src/symmetric.rs): dimension check
`self.n != rhs.m` first; otherwise the triple loop fills an `out` matrix of
shape `self.n × rhs.n` in row-major order, every cell written exactly once. -/
def symDenseMul {T : Type} [Zero T] [Add T] [Mul T] (s : Symmetric T) (d : Dense T) :
    Option (Except MatrixError (Dense T)) :=
  if s.n ≠ d.m then
    some (Except.error MatrixError.Incompatibility)
  else do
    let rows ← optMapRange (fun i => optMapRange (fun j => dotSD s d i j) d.n) s.n
    pure (Except.ok ⟨rows.flatten, s.n, d.n⟩)

/-- The value the triple loop stores at cell `(i, j)`: the sum over
`k in 0..s.n` of `s[[i, k]] * d[[k, j]]`, accumulated left to right from the
seed `ZERO` (written with total lookups; it agrees with the fallible loop on
in-bounds input). -/
def sumSD {T : Type} [Zero T] [Add T] [Mul T] (s : Symmetric T) (d : Dense T)
    (i j : Nat) : T :=
  (List.range s.n).foldl
    (fun acc k =>
      acc + s.data.getD (symOffset i k) 0 * d.data.getD (j + k * d.n) 0)
    0

/-- `Concatenate<Dense<T>, T> for Dense<T>` (src/src/dense.rs): row-count check
`self.m == other.m`; on success, for each row `i` push `self[[i, j]]` for
`j in 0..self.n` then `other[[i, j]]` for `j in 0..other.n`. -/
def Dense.concatenate {T : Type} (a b : Dense T) :
    Option (Except MatrixError (Dense T)) :=
  if a.m = b.m then do
    let rows ← optMapRange
      (fun i => do
        let ra ← optMapRange (fun j => a.get? i j) a.n
        let rb ← optMapRange (fun j => b.get? i j) b.n
        pure (ra ++ rb)) a.m
    pure (Except.ok ⟨rows.flatten, a.m, a.n + b.n⟩)
  else
    some (Except.error MatrixError.Incompatibility)

/-- The column loop of `RowOps::add_rows` for `Dense<T>` run over columns
`0, …, count-1`: each iteration computes `x = self[[row_to_add, j]] * scale`
and then `self[[base, j]] += x` (a read of the destination followed by a
store). -/
def Dense.addRowsAux {T : Type} [Add T] [Mul T] (base src : Nat) (c : T) :
    Dense T → Nat → Option (Dense T)
  | d, 0 => some d
  | d, j + 1 => do
    let d' ← Dense.addRowsAux base src c d j
    let x ← d'.get? src j
    let old ← d'.get? base j
    d'.set? base j (old + x * c)

/-- `RowOps::add_rows(base, row_to_add, scale)` for `Dense<T>`: the loop runs
for `j in 0..self.n`. -/
def Dense.addRows {T : Type} [Add T] [Mul T] (d : Dense T) (base src : Nat)
    (c : T) : Option (Dense T) :=
  Dense.addRowsAux base src c d d.n

/-- `gcd` (src/src/numerics.rs): Stein's binary algorithm, recursive, for
unsigned integers; `is_even` is `x % TWO == ZERO`, `is_odd` is
`x % TWO == ONE`.  Every operation is exact on `Nat`. -/
def gcd (a b : Nat) : Nat :=
  if a = b ∨ b = 0 then a
  else if a = 0 then b
  else if a % 2 = 0 then
    if b % 2 = 1 then gcd (a / 2) b
    else 2 * gcd (a / 2) (b / 2)
  else if b % 2 = 0 then gcd a (b / 2)
  else if a > b then gcd ((a - b) / 2) b
  else gcd ((b - a) / 2) a
termination_by a + b
decreasing_by
  all_goals omega

/-- `lcm` (src/src/numerics.rs): `let gcd = gcd(a, b); (a * b) / gcd`.  Rust
integer division aborts when the divisor is zero (which happens exactly at
`a = b = 0`), so the division is modelled fallibly: `none` is the
divide-by-zero abort.  The caller guarantees that `a * b` does not overflow,
so the `Nat` product is the machine product. -/
def lcm (a b : Nat) : Option Nat :=
  if gcd a b = 0 then none else some (a * b / gcd a b)

/-- Fuel-indexed evaluator for `gcd`: one unit of fuel is consumed per call,
`none` means the recursion did not finish within the given fuel.  Its branches
mirror the source exactly. -/
def gcdFuel : Nat → Nat → Nat → Option Nat
  | 0, _, _ => none
  | fuel + 1, a, b =>
    if a = b ∨ b = 0 then some a
    else if a = 0 then some b
    else if a % 2 = 0 then
      if b % 2 = 1 then gcdFuel fuel (a / 2) b
      else (gcdFuel fuel (a / 2) (b / 2)).map (fun g => 2 * g)
    else if b % 2 = 0 then gcdFuel fuel a (b / 2)
    else if a > b then gcdFuel fuel ((a - b) / 2) b
    else gcdFuel fuel ((b - a) / 2) a

/-! ## Helper lemmas -/

/-- The row-major flat offset of an in-bounds position is within the storage. -/
theorem dense_offset_lt {i j m n : Nat} (hi : i < m) (hj : j < n) :
    j + i * n < m * n := by
  calc j + i * n < n + i * n := by omega
    _ = (i + 1) * n := by ring
    _ ≤ m * n := Nat.mul_le_mul_right n hi

/-- The triangular offset is symmetric in its two arguments. -/
theorem symOffset_comm (i j : Nat) : symOffset i j = symOffset j i := by
  unfold symOffset
  rcases Nat.lt_trichotomy i j with h | h | h
  · rw [if_neg (by omega), if_pos h]
  · subst h
    rfl
  · rw [if_pos h, if_neg (by omega)]

/-- The triangular offset equals `hi*(hi+1)/2 + lo` for `hi = max i j`,
`lo = min i j`. -/
theorem symOffset_eq (i j : Nat) :
    symOffset i j = max i j * (max i j + 1) / 2 + min i j := by
  unfold symOffset
  rcases Nat.lt_or_ge j i with h | h
  · rw [if_pos h, Nat.max_eq_left (Nat.le_of_lt h), Nat.min_eq_right (Nat.le_of_lt h)]
  · rw [if_neg (by omega), Nat.max_eq_right h, Nat.min_eq_left h]

/-- For indices below `n`, the triangular offset is within the triangular
storage of length `n*(n+1)/2`. -/
theorem symOffset_lt {i j n : Nat} (hi : i < n) (hj : j < n) :
    symOffset i j < n * (n + 1) / 2 := by
  rw [symOffset_eq]
  set hi' := max i j with hdef
  have hlo : min i j ≤ hi' := by omega
  have hhi : hi' < n := by omega
  have step : hi' * (hi' + 1) / 2 + min i j < (hi' + 1) * (hi' + 2) / 2 := by
    have hexp : (hi' + 1) * (hi' + 2) = hi' * (hi' + 1) + (hi' + 1) * 2 := by ring
    have : (hi' * (hi' + 1) + (hi' + 1) * 2) / 2 = hi' * (hi' + 1) / 2 + (hi' + 1) :=
      Nat.add_mul_div_right _ _ (by omega)
    omega
  have mono : (hi' + 1) * (hi' + 2) / 2 ≤ n * (n + 1) / 2 :=
    Nat.div_le_div_right (Nat.mul_le_mul (by omega) (by omega))
  omega

/-! ## C1: transpose view reads and writes -/

/-- C1: for every Dense matrix `d` and in-bounds view position `(i, j)`
(`i < d.n`, `j < d.m`), reading the transpose view at `[i, j]` returns
`d[[j, i]]` (the read succeeds), and writing `v` through the mutable transpose
view at `[i, j]` succeeds and afterwards reading the underlying matrix at
`[j, i]` returns `v`. -/
theorem transpose_view_index_spec {T : Type} (d : Dense T)
    (h : d.data.length = d.m * d.n) (i j : Nat) (hi : i < d.n) (hj : j < d.m) :
    ((d.t).get? i j = d.get? j i ∧ (d.get? j i).isSome) ∧
    (∀ v : T, ∃ w : DenseTransposeMut T,
      (d.tMut).set? i j v = some w ∧ w.inner.get? j i = some v) := by
  have hofs : i + j * d.n < d.data.length := by
    rw [h]; exact dense_offset_lt hj hi
  constructor
  · refine ⟨rfl, ?_⟩
    rw [Dense.get?, List.getElem?_eq_getElem hofs]
    rfl
  · intro v
    refine ⟨⟨{ d with data := d.data.set (i + j * d.n) v }, d.n, d.m⟩, ?_, ?_⟩
    · rw [Dense.tMut, DenseTransposeMut.set?, Dense.set?, if_pos hofs]
      rfl
    · show (d.data.set (i + j * d.n) v)[i + j * d.n]? = some v
      exact List.getElem?_set_self (by simpa using hofs)

/-- C1 witness: instantiation at a concrete 2×3 matrix, view position (2, 1). -/
theorem transpose_view_index_spec_witness :
    ((Dense.mk [0, 1, 2, 3, 4, 5] 2 3 : Dense Int).data.length = 2 * 3 ∧ 2 < 3 ∧ 1 < 2) ∧
    ((((Dense.mk [0, 1, 2, 3, 4, 5] 2 3 : Dense Int).t).get? 2 1 =
        (Dense.mk [0, 1, 2, 3, 4, 5] 2 3 : Dense Int).get? 1 2 ∧
      ((Dense.mk [0, 1, 2, 3, 4, 5] 2 3 : Dense Int).get? 1 2).isSome) ∧
    (∀ v : Int, ∃ w : DenseTransposeMut Int,
      ((Dense.mk [0, 1, 2, 3, 4, 5] 2 3 : Dense Int).tMut).set? 2 1 v = some w ∧
      w.inner.get? 1 2 = some v)) :=
  ⟨⟨rfl, by decide, by decide⟩,
    transpose_view_index_spec (Dense.mk [0, 1, 2, 3, 4, 5] 2 3) rfl 2 1
      (by decide) (by decide)⟩

/-! ## C2: symmetric storage invariant -/

/-- C2: for a Symmetric matrix with storage length `n*(n+1)/2` and indices
`i, j < n`, reads at `[i, j]` and `[j, i]` agree, both resolve to the single
slot at `max i j * (max i j + 1) / 2 + min i j` (and succeed), and the
equality is preserved by every indexed write and by scalar multiplication. -/
theorem symmetric_index_spec {T : Type} [Mul T] (s : Symmetric T)
    (hs : s.data.length = s.n * (s.n + 1) / 2) (i j : Nat)
    (hi : i < s.n) (hj : j < s.n) :
    s.get? i j = s.get? j i ∧
    s.get? i j = s.data[max i j * (max i j + 1) / 2 + min i j]? ∧
    (s.get? i j).isSome ∧
    (∀ (p q : Nat) (v : T) (s' : Symmetric T),
      s.set? p q v = some s' → s'.get? i j = s'.get? j i) ∧
    (∀ c : T, (s.scalarMul c).get? i j = (s.scalarMul c).get? j i) := by
  have hlt : symOffset i j < s.data.length := by
    rw [hs]; exact symOffset_lt hi hj
  refine ⟨?_, ?_, ?_, ?_, ?_⟩
  · rw [Symmetric.get?, Symmetric.get?, symOffset_comm]
  · rw [Symmetric.get?, symOffset_eq]
  · rw [Symmetric.get?, List.getElem?_eq_getElem hlt]
    rfl
  · intro p q v s' hset
    rw [Symmetric.set?] at hset
    by_cases hb : symOffset p q < s.data.length
    · rw [if_pos hb] at hset
      cases hset
      show (s.data.set _ _)[symOffset i j]? = (s.data.set _ _)[symOffset j i]?
      rw [symOffset_comm i j]
    · rw [if_neg hb] at hset
      cases hset
  · intro c
    rw [Symmetric.get?, Symmetric.get?, symOffset_comm]

/-- C2 witness: instantiation at a concrete 2×2 symmetric matrix with
triangular data `[1, 2, 3]`, indices (0, 1). -/
theorem symmetric_index_spec_witness :
    ((Symmetric.mk [1, 2, 3] 2 : Symmetric Int).data.length = 2 * (2 + 1) / 2 ∧
      0 < 2 ∧ 1 < 2) ∧
    ((Symmetric.mk [1, 2, 3] 2 : Symmetric Int).get? 0 1 =
        (Symmetric.mk [1, 2, 3] 2 : Symmetric Int).get? 1 0 ∧
      (Symmetric.mk [1, 2, 3] 2 : Symmetric Int).get? 0 1 =
        (Symmetric.mk [1, 2, 3] 2 : Symmetric Int).data[max 0 1 * (max 0 1 + 1) / 2 + min 0 1]? ∧
      ((Symmetric.mk [1, 2, 3] 2 : Symmetric Int).get? 0 1).isSome ∧
      (∀ (p q : Nat) (v : Int) (s' : Symmetric Int),
        (Symmetric.mk [1, 2, 3] 2 : Symmetric Int).set? p q v = some s' →
          s'.get? 0 1 = s'.get? 1 0) ∧
      (∀ c : Int,
        ((Symmetric.mk [1, 2, 3] 2 : Symmetric Int).scalarMul c).get? 0 1 =
          ((Symmetric.mk [1, 2, 3] 2 : Symmetric Int).scalarMul c).get? 1 0)) :=
  ⟨⟨by decide, by decide, by decide⟩,
    symmetric_index_spec (Symmetric.mk [1, 2, 3] 2) (by decide) 0 1
      (by decide) (by decide)⟩

/-! ## C4: transpose view size() -/

/-- C4 evaluation: on the 2×3 matrix `[[0,1,2],[3,4,5]]` both transpose views
report `size() = [2, 3]` (the underlying matrix's `[d.m, d.n]`, because the
source delegates to `self.inner.size()`), not the swapped `[3, 2]` the claim
requires. -/
theorem transpose_size_eval :
    ((Dense.mk [0, 1, 2, 3, 4, 5] 2 3 : Dense Int).t).size = [2, 3] ∧
    ((Dense.mk [0, 1, 2, 3, 4, 5] 2 3 : Dense Int).tMut).size = [2, 3] ∧
    ([2, 3] : List Nat) ≠ [3, 2] :=
  ⟨rfl, rfl, by decide⟩

/-! ## C7: dense index bounds behaviour -/

/-- C7 counterexample: on the 2×3 matrix `[[0,1,2],[3,4,5]]`, the access
`d[[0, 3]]` has `j = 3 ≥ d.n = 3`, i.e. it is out of range in the claim's
sense, yet it silently succeeds, returning the element at flat offset 3
(which is `d[[1, 0]]`). -/
theorem dense_index_oob_counterexample :
    (Dense.mk [0, 1, 2, 3, 4, 5] 2 3 : Dense Int).data.length =
      (Dense.mk [0, 1, 2, 3, 4, 5] 2 3 : Dense Int).m *
        (Dense.mk [0, 1, 2, 3, 4, 5] 2 3 : Dense Int).n ∧
    (Dense.mk [0, 1, 2, 3, 4, 5] 2 3 : Dense Int).n ≤ 3 ∧
    (Dense.mk [0, 1, 2, 3, 4, 5] 2 3 : Dense Int).get? 0 3 = some 3 :=
  ⟨rfl, by decide, rfl⟩

/-- C7 amended: an index access (read or write) on a Dense matrix with intact
storage fails exactly when its flat offset `j + i*n` falls outside the data
(`≥ m*n`); every access with `i < m` and `j < n` succeeds and resolves to flat
offset `j + i*n`.  (An out-of-range `(i, j)` whose flat offset is still below
`m*n` silently succeeds, reading an element of a later row.) -/
theorem dense_index_bounds_spec {T : Type} (d : Dense T)
    (h : d.data.length = d.m * d.n) (i j : Nat) :
    (d.get? i j = none ↔ d.m * d.n ≤ j + i * d.n) ∧
    (∀ v : T, d.set? i j v = none ↔ d.m * d.n ≤ j + i * d.n) ∧
    (i < d.m → j < d.n →
      d.get? i j = d.data[j + i * d.n]? ∧ (d.get? i j).isSome) := by
  refine ⟨?_, ?_, ?_⟩
  · rw [Dense.get?, List.getElem?_eq_none_iff, h]
  · intro v
    rw [Dense.set?, h]
    constructor
    · intro hnone
      by_contra hlt
      rw [if_pos (by omega)] at hnone
      cases hnone
    · intro hge
      rw [if_neg (by omega)]
  · intro hi hj
    have hofs : j + i * d.n < d.data.length := by
      rw [h]; exact dense_offset_lt hi hj
    refine ⟨rfl, ?_⟩
    rw [Dense.get?, List.getElem?_eq_getElem hofs]
    rfl

/-- C7 amended witness: instantiation at the 2×3 matrix `[[0,1,2],[3,4,5]]`,
position (1, 2). -/
theorem dense_index_bounds_spec_witness :
    ((Dense.mk [0, 1, 2, 3, 4, 5] 2 3 : Dense Int).data.length = 2 * 3) ∧
    (((Dense.mk [0, 1, 2, 3, 4, 5] 2 3 : Dense Int).get? 1 2 = none ↔
        2 * 3 ≤ 2 + 1 * 3) ∧
      (∀ v : Int,
        (Dense.mk [0, 1, 2, 3, 4, 5] 2 3 : Dense Int).set? 1 2 v = none ↔
          2 * 3 ≤ 2 + 1 * 3) ∧
      (1 < 2 → 2 < 3 →
        (Dense.mk [0, 1, 2, 3, 4, 5] 2 3 : Dense Int).get? 1 2 =
          (Dense.mk [0, 1, 2, 3, 4, 5] 2 3 : Dense Int).data[2 + 1 * 3]? ∧
        ((Dense.mk [0, 1, 2, 3, 4, 5] 2 3 : Dense Int).get? 1 2).isSome)) :=
  ⟨rfl, dense_index_bounds_spec (Dense.mk [0, 1, 2, 3, 4, 5] 2 3) rfl 1 2⟩

/-! ## C8: gcd terminates, sum of arguments strictly decreases -/

/-- C8: the recursive `gcd` terminates for every pair of unsigned integers:
because every recursive call strictly decreases `a + b`, the fuel-indexed
evaluator finishes (reaching a base case) within any fuel exceeding `a + b`,
producing the value of `gcd`. -/
theorem gcd_terminates_fuel : ∀ (fuel a b : Nat), a + b < fuel →
    gcdFuel fuel a b = some (gcd a b) := by
  intro fuel
  induction fuel with
  | zero => intro a b h; omega
  | succ f ih =>
    intro a b h
    rw [gcd, gcdFuel]
    by_cases h1 : a = b ∨ b = 0
    · rw [if_pos h1, if_pos h1]
    · rw [if_neg h1, if_neg h1]
      by_cases h2 : a = 0
      · rw [if_pos h2, if_pos h2]
      · rw [if_neg h2, if_neg h2]
        by_cases h3 : a % 2 = 0
        · rw [if_pos h3, if_pos h3]
          by_cases h4 : b % 2 = 1
          · rw [if_pos h4, if_pos h4]
            exact ih _ _ (by omega)
          · rw [if_neg h4, if_neg h4]
            rw [ih _ _ (by omega)]
            rfl
        · rw [if_neg h3, if_neg h3]
          by_cases h5 : b % 2 = 0
          · rw [if_pos h5, if_pos h5]
            exact ih _ _ (by omega)
          · rw [if_neg h5, if_neg h5]
            by_cases h6 : a > b
            · rw [if_pos h6, if_pos h6]
              exact ih _ _ (by omega)
            · rw [if_neg h6, if_neg h6]
              exact ih _ _ (by omega)

/-- C8 witness: with fuel `21 + 49 + 1 = 71` the evaluator finishes on
`(21, 49)`. -/
theorem gcd_terminates_fuel_witness :
    21 + 49 < 71 ∧ gcdFuel 71 21 49 = some (gcd 21 49) :=
  ⟨by decide, gcd_terminates_fuel 71 21 49 (by decide)⟩

/-! ## C9: lcm * gcd = a * b -/

/-- The source `gcd` computes the mathematical greatest common divisor. -/
theorem gcd_eq_natGcd (a b : Nat) : gcd a b = Nat.gcd a b := by
  induction a, b using gcd.induct with
  | case1 a b h1 =>
    rw [gcd, if_pos h1]
    rcases h1 with h | h
    · rw [h, Nat.gcd_self]
    · rw [h, Nat.gcd_zero_right]
  | case2 b h1 =>
    rw [gcd, if_neg h1, if_pos rfl, Nat.gcd_zero_left]
  | case3 a b h1 h2 h3 h4 ih =>
    rw [gcd, if_neg h1, if_neg h2, if_pos h3, if_pos h4, ih]
    have hco : Nat.Coprime 2 b := Nat.coprime_two_left.mpr (Nat.odd_iff.mpr h4)
    have ha : 2 * (a / 2) = a := Nat.mul_div_cancel' (Nat.dvd_of_mod_eq_zero h3)
    calc Nat.gcd (a / 2) b = Nat.gcd (2 * (a / 2)) b :=
          (hco.gcd_mul_left_cancel (a / 2)).symm
      _ = Nat.gcd a b := by rw [ha]
  | case4 a b h1 h2 h3 h4 ih =>
    rw [gcd, if_neg h1, if_neg h2, if_pos h3, if_neg h4, ih]
    have ha : 2 * (a / 2) = a := Nat.mul_div_cancel' (Nat.dvd_of_mod_eq_zero h3)
    have hb : 2 * (b / 2) = b := Nat.mul_div_cancel' (Nat.dvd_of_mod_eq_zero (by omega))
    calc 2 * Nat.gcd (a / 2) (b / 2) = Nat.gcd (2 * (a / 2)) (2 * (b / 2)) :=
          (Nat.gcd_mul_left 2 (a / 2) (b / 2)).symm
      _ = Nat.gcd a b := by rw [ha, hb]
  | case5 a b h1 h2 h3 h5 ih =>
    rw [gcd, if_neg h1, if_neg h2, if_neg h3, if_pos h5, ih]
    have hco : Nat.Coprime 2 a := Nat.coprime_two_left.mpr (Nat.odd_iff.mpr (by omega))
    have hb : 2 * (b / 2) = b := Nat.mul_div_cancel' (Nat.dvd_of_mod_eq_zero h5)
    calc Nat.gcd a (b / 2) = Nat.gcd (b / 2) a := Nat.gcd_comm _ _
      _ = Nat.gcd (2 * (b / 2)) a := (hco.gcd_mul_left_cancel (b / 2)).symm
      _ = Nat.gcd b a := by rw [hb]
      _ = Nat.gcd a b := Nat.gcd_comm _ _
  | case6 a b h1 h2 h3 h5 h6 ih =>
    rw [gcd, if_neg h1, if_neg h2, if_neg h3, if_neg h5, if_pos h6, ih]
    have hco : Nat.Coprime 2 b := Nat.coprime_two_left.mpr (Nat.odd_iff.mpr (by omega))
    have hab : 2 * ((a - b) / 2) = a - b :=
      Nat.mul_div_cancel' (Nat.dvd_of_mod_eq_zero (by omega))
    calc Nat.gcd ((a - b) / 2) b = Nat.gcd (2 * ((a - b) / 2)) b :=
          (hco.gcd_mul_left_cancel _).symm
      _ = Nat.gcd (a - b) b := by rw [hab]
      _ = Nat.gcd a b := Nat.gcd_sub_self_left (by omega)
  | case7 a b h1 h2 h3 h5 h6 ih =>
    rw [gcd, if_neg h1, if_neg h2, if_neg h3, if_neg h5, if_neg h6, ih]
    have hco : Nat.Coprime 2 a := Nat.coprime_two_left.mpr (Nat.odd_iff.mpr (by omega))
    have hba : 2 * ((b - a) / 2) = b - a :=
      Nat.mul_div_cancel' (Nat.dvd_of_mod_eq_zero (by omega))
    calc Nat.gcd ((b - a) / 2) a = Nat.gcd (2 * ((b - a) / 2)) a :=
          (hco.gcd_mul_left_cancel _).symm
      _ = Nat.gcd (b - a) a := by rw [hba]
      _ = Nat.gcd b a := Nat.gcd_sub_self_left (by omega)
      _ = Nat.gcd a b := Nat.gcd_comm _ _

/-- C9 counterexample: at `a = b = 0` the product does not overflow (so the
pair is covered by the claim's quantifier and precondition), yet `gcd(0, 0)`
returns `0` and the division `(a * b) / gcd` aborts with a divide-by-zero, so
`lcm(0, 0)` produces no value at all — the claimed identity cannot hold
there. -/
theorem lcm_zero_zero_aborts :
    0 * 0 < 2 ^ 64 ∧ gcd 0 0 = 0 ∧ lcm 0 0 = none := by
  have hg : gcd 0 0 = 0 := by rw [gcd]; simp
  exact ⟨by norm_num, hg, by rw [lcm, if_pos hg]⟩

/-- C9 (amended): for all unsigned integers `a` and `b` such that the product
`a * b` does not overflow the representable range (modelled here for 64-bit
words; the `Nat` product then coincides with the machine product) and not
both are zero, `lcm(a, b)` returns a value `v` with `v * gcd(a, b) = a * b`;
at `a = b = 0` the division by `gcd(0, 0) = 0` aborts instead. -/
theorem lcm_mul_gcd (a b : Nat) (_hfit : a * b < 2 ^ 64)
    (hnz : ¬(a = 0 ∧ b = 0)) :
    ∃ v : Nat, lcm a b = some v ∧ v * gcd a b = a * b := by
  have hg : gcd a b ≠ 0 := by
    rw [gcd_eq_natGcd]
    intro h0
    exact hnz ⟨Nat.eq_zero_of_gcd_eq_zero_left h0,
      Nat.eq_zero_of_gcd_eq_zero_right h0⟩
  refine ⟨a * b / gcd a b, by rw [lcm, if_neg hg], ?_⟩
  rw [gcd_eq_natGcd]
  exact Nat.div_mul_cancel ((Nat.gcd_dvd_left a b).mul_right b)

/-- C9 witness: at `(4, 6)` the product fits, the pair is nonzero, and
`lcm * gcd = 24 = 4 * 6`. -/
theorem lcm_mul_gcd_witness :
    (4 * 6 < 2 ^ 64 ∧ ¬(4 = 0 ∧ 6 = 0)) ∧
    (∃ v : Nat, lcm 4 6 = some v ∧ v * gcd 4 6 = 4 * 6) :=
  ⟨⟨by norm_num, by decide⟩, lcm_mul_gcd 4 6 (by norm_num) (by decide)⟩

/-! ## Helper lemmas for loop models -/

/-- If every iteration succeeds, `optMapRange` produces a list of length
`count` whose `k`-th entry is the value produced by iteration `k`. -/
theorem optMapRange_exists {α : Type} (f : Nat → Option α) :
    ∀ count : Nat, (∀ k, k < count → (f k).isSome) →
      ∃ xs : List α, optMapRange f count = some xs ∧ xs.length = count ∧
        ∀ k, k < count → xs[k]? = f k := by
  intro count
  induction count with
  | zero => exact fun _ => ⟨[], rfl, rfl, fun k hk => absurd hk (by omega)⟩
  | succ n ih =>
    intro h
    obtain ⟨xs, hxs, hlen, hget⟩ := ih (fun k hk => h k (by omega))
    obtain ⟨x, hx⟩ := Option.isSome_iff_exists.mp (h n (by omega))
    refine ⟨xs ++ [x], ?_, ?_, ?_⟩
    · rw [optMapRange, hxs, hx]
      rfl
    · simp [hlen]
    · intro k hk
      rcases Nat.lt_or_ge k n with hkn | hkn
      · rw [List.getElem?_append_left (by omega), hget k hkn]
      · have hk' : k = n := by omega
        subst hk'
        rw [List.getElem?_append_right (by omega), hlen, Nat.sub_self, hx]
        rfl

/-- If every iteration succeeds with the pure step `g'`, the fallible fold
equals the pure left fold over `0, …, count-1`. -/
theorem optFoldRange_eq {α : Type} (g : α → Nat → Option α) (g' : α → Nat → α)
    (init : α) :
    ∀ count : Nat, (∀ acc k, k < count → g acc k = some (g' acc k)) →
      optFoldRange g init count = some (List.foldl g' init (List.range count)) := by
  intro count
  induction count with
  | zero => exact fun _ => rfl
  | succ n ih =>
    intro h
    rw [optFoldRange, ih (fun acc k hk => h acc k (by omega)), List.range_succ,
      List.foldl_append]
    exact h _ n (by omega)

/-- Position `i * c + j` of the flattening of a list of rows of uniform length
`c` is position `j` of row `i`. -/
theorem flatten_getElem?_uniform {α : Type} (c : Nat) :
    ∀ (L : List (List α)) (i j : Nat), (∀ l ∈ L, l.length = c) → j < c →
      L.flatten[i * c + j]? = L[i]?.bind (fun l => l[j]?) := by
  intro L
  induction L with
  | nil => intro i j _ _; simp
  | cons l L' ih =>
    intro i j hlen hj
    have hl : l.length = c := hlen l (List.mem_cons_self l L')
    rw [List.flatten_cons]
    cases i with
    | zero =>
      rw [Nat.zero_mul, Nat.zero_add, List.getElem?_append_left (by omega)]
      simp
    | succ i' =>
      have hmul : (i' + 1) * c = i' * c + c := Nat.succ_mul i' c
      rw [List.getElem?_append_right (by omega), List.getElem?_cons_succ]
      rw [show (i' + 1) * c + j - l.length = i' * c + j by omega]
      exact ih i' j (fun x hx => hlen x (List.mem_cons_of_mem l hx)) hj

/-- Element `j` of a strided traversal `skip`-free part: position `j` of
`stepped l s` is position `j * s` of `l`, for stride `s ≥ 1`. -/
theorem stepped_getElem? {α : Type} (s : Nat) (hs : 1 ≤ s) :
    ∀ (j : Nat) (l : List α), (stepped l s)[j]? = l[j * s]? := by
  intro j
  induction j with
  | zero =>
    intro l
    cases l with
    | nil => rw [stepped]; simp
    | cons x xs => rw [stepped]; simp
  | succ j' ih =>
    intro l
    cases l with
    | nil => rw [stepped]; simp
    | cons x xs =>
      rw [stepped, List.getElem?_cons_succ, ih (xs.drop (s - 1)),
        List.getElem?_drop]
      have hmul : (j' + 1) * s = j' * s + s := by ring
      have : (j' + 1) * s = (s - 1 + j' * s) + 1 := by omega
      rw [this, List.getElem?_cons_succ]

/-- Each column chunk walked by the transpose views' `into_vec` has exactly
`d.m` elements when the storage is intact and the start offset is a column
index. -/
theorem stepped_chunk_length {T : Type} (d : Dense T)
    (h : d.data.length = d.m * d.n) (i : Nat) (hi : i < d.n) :
    (stepped (d.data.drop i) d.n).length = d.m := by
  have hn : 1 ≤ d.n := by omega
  have hupper : (stepped (d.data.drop i) d.n).length ≤ d.m := by
    have hnone : (stepped (d.data.drop i) d.n)[d.m]? = none := by
      rw [stepped_getElem? d.n hn, List.getElem?_eq_none_iff, List.length_drop, h]
      have : d.m * d.n ≤ d.m * d.n := Nat.le_refl _
      omega
    exact List.getElem?_eq_none_iff.mp hnone
  cases hm : d.m with
  | zero => omega
  | succ m' =>
    have hsome : (stepped (d.data.drop i) d.n)[m']? ≠ none := by
      rw [stepped_getElem? d.n hn, List.getElem?_drop]
      have hofs : i + m' * d.n < d.data.length := by
        rw [h, hm]
        exact dense_offset_lt (by omega) hi
      rw [List.getElem?_eq_getElem hofs]
      exact Option.some_ne_none _
    have := List.getElem?_eq_none_iff.not.mp hsome
    omega

/-! ## C5: transpose view into_vec materializes the transposed order -/

/-- C5: converting a transpose view of `d` into a flat sequence walks the
underlying storage starting at each offset `i < view.m` with stride `view.m`,
and the element at position `i * view.n + j` of the result (for `i < view.m`,
`j < view.n`, i.e. `i < d.n`, `j < d.m`) is `d[[j, i]]`; the mutable view's
`into_vec` is the same function.  The result has one element per matrix
element. -/
theorem transpose_intoVec_spec {T : Type} (d : Dense T)
    (h : d.data.length = d.m * d.n) :
    ((d.t).intoVec.length = d.data.length ∧
      ∀ i j, i < d.n → j < d.m →
        (d.t).intoVec[i * d.m + j]? = d.get? j i ∧ (d.get? j i).isSome) ∧
    (d.tMut).intoVec = (d.t).intoVec := by
  have hn1 : ∀ i, i < d.n → 1 ≤ d.n := fun i hi => by omega
  have hchunks : ∀ l ∈ (List.range d.n).map
      (fun i => stepped (d.data.drop i) d.n), l.length = d.m := by
    intro l hl
    obtain ⟨i, hi, rfl⟩ := List.mem_map.mp hl
    exact stepped_chunk_length d h i (List.mem_range.mp hi)
  constructor
  · constructor
    · rw [DenseTranspose.intoVec]
      show ((List.range (d.t).m).flatMap
        (fun i => stepped ((d.t).inner.data.drop i) (d.t).m)).length = d.data.length
      rw [List.flatMap_def, List.length_flatten, List.map_map]
      show ((List.range d.n).map (fun i =>
        (stepped (d.data.drop i) d.n).length)).sum = d.data.length
      have : ∀ i ∈ List.range d.n,
          (stepped (d.data.drop i) d.n).length = d.m := fun i hi =>
        stepped_chunk_length d h i (List.mem_range.mp hi)
      rw [List.map_congr_left (fun i hi => this i hi)]
      rw [List.map_const', List.sum_replicate, List.length_range, smul_eq_mul, h]
      ring
    · intro i j hi hj
      have hget : d.get? j i = d.data[i + j * d.n]? := rfl
      have hofs : i + j * d.n < d.data.length := by
        rw [h]; exact dense_offset_lt hj hi
      constructor
      · rw [DenseTranspose.intoVec]
        show ((List.range d.n).flatMap
          (fun k => stepped (d.data.drop k) d.n))[i * d.m + j]? = d.get? j i
        rw [List.flatMap_def,
          flatten_getElem?_uniform d.m _ i j hchunks hj,
          List.getElem?_map, List.getElem?_range hi]
        show ((stepped (d.data.drop i) d.n))[j]? = d.get? j i
        rw [stepped_getElem? d.n (hn1 i hi), List.getElem?_drop]
        rfl
      · rw [hget, List.getElem?_eq_getElem hofs]
        rfl
  · rfl

/-- C5 witness: instantiation at the 2×3 matrix `[[0,1,2],[3,4,5]]`, whose
transposed flat order is `[0,3,1,4,2,5]`. -/
theorem transpose_intoVec_spec_witness :
    ((Dense.mk [0, 1, 2, 3, 4, 5] 2 3 : Dense Int).data.length = 2 * 3) ∧
    ((((Dense.mk [0, 1, 2, 3, 4, 5] 2 3 : Dense Int).t).intoVec.length =
        (Dense.mk [0, 1, 2, 3, 4, 5] 2 3 : Dense Int).data.length ∧
      ∀ i j, i < 3 → j < 2 →
        ((Dense.mk [0, 1, 2, 3, 4, 5] 2 3 : Dense Int).t).intoVec[i * 2 + j]? =
          (Dense.mk [0, 1, 2, 3, 4, 5] 2 3 : Dense Int).get? j i ∧
        ((Dense.mk [0, 1, 2, 3, 4, 5] 2 3 : Dense Int).get? j i).isSome) ∧
    ((Dense.mk [0, 1, 2, 3, 4, 5] 2 3 : Dense Int).tMut).intoVec =
      ((Dense.mk [0, 1, 2, 3, 4, 5] 2 3 : Dense Int).t).intoVec) :=
  ⟨rfl, transpose_intoVec_spec (Dense.mk [0, 1, 2, 3, 4, 5] 2 3) rfl⟩

/-! ## C10: aliased add_rows -/

/-- A flat offset `q + p*n` of a row `p ≠ i` never falls inside row `i`'s
window `[i*n, i*n + n)`. -/
theorem row_offset_disjoint {p q i n : Nat} (hq : q < n) (hne : p ≠ i) :
    ¬(i * n ≤ q + p * n ∧ q + p * n < i * n + n) := by
  rcases Nat.lt_or_ge p i with hlt | hge
  · have h1 : (p + 1) * n ≤ i * n := Nat.mul_le_mul_right n hlt
    have h2 : (p + 1) * n = p * n + n := by ring
    omega
  · have hgt : i < p := by omega
    have h1 : (i + 1) * n ≤ p * n := Nat.mul_le_mul_right n hgt
    have h2 : (i + 1) * n = i * n + n := by ring
    omega

/-- Running the `add_rows` column loop with `base = row_to_add = i` over the
first `cnt` columns succeeds and multiplies-and-adds exactly the flat offsets
`i*n, …, i*n + cnt - 1`, leaving everything else untouched: each such slot `v`
becomes `v + v * c`. -/
theorem addRowsAux_self {T : Type} [Add T] [Mul T] (i : Nat) (c : T) :
    ∀ (cnt : Nat) (d : Dense T), d.data.length = d.m * d.n → i < d.m →
      cnt ≤ d.n →
      ∃ d' : Dense T, Dense.addRowsAux i i c d cnt = some d' ∧
        d'.m = d.m ∧ d'.n = d.n ∧ d'.data.length = d.data.length ∧
        ∀ o : Nat, d'.data[o]? =
          if i * d.n ≤ o ∧ o < i * d.n + cnt then
            (d.data[o]?).map (fun v => v + v * c)
          else d.data[o]? := by
  intro cnt
  induction cnt with
  | zero =>
    intro d h hi _
    exact ⟨d, rfl, rfl, rfl, rfl, fun o => by rw [if_neg (by omega)]⟩
  | succ cnt' ih =>
    intro d h hi hcnt
    obtain ⟨d₁, hd₁, hm₁, hn₁, hlen₁, hget₁⟩ := ih d h hi (by omega)
    have hofs : cnt' + i * d.n < d.data.length := by
      rw [h]; exact dense_offset_lt hi (by omega)
    have hread : d₁.get? i cnt' = d.data[cnt' + i * d.n]? := by
      rw [Dense.get?, hn₁, hget₁, if_neg (by omega)]
    obtain ⟨v, hv⟩ : ∃ v, d.data[cnt' + i * d.n]? = some v := by
      rw [List.getElem?_eq_getElem hofs]
      exact ⟨_, rfl⟩
    have hwrite : d₁.set? i cnt' (v + v * c) =
        some { d₁ with data := d₁.data.set (cnt' + i * d.n) (v + v * c) } := by
      rw [Dense.set?, hn₁, if_pos (by omega)]
    refine ⟨{ d₁ with data := d₁.data.set (cnt' + i * d.n) (v + v * c) },
      ?_, hm₁, hn₁, ?_, ?_⟩
    · rw [Dense.addRowsAux, hd₁]
      show (do
        let x ← d₁.get? i cnt'
        let old ← d₁.get? i cnt'
        d₁.set? i cnt' (old + x * c)) = _
      rw [hread, hv]
      show d₁.set? i cnt' (v + v * c) = _
      rw [hwrite]
    · rw [List.length_set, hlen₁]
    · intro o
      by_cases ho : o = cnt' + i * d.n
      · subst ho
        rw [List.getElem?_set_self (by omega), if_pos (by omega), hv]
        rfl
      · rw [List.getElem?_set_ne (fun hx => ho hx.symm), hget₁]
        by_cases hin : i * d.n ≤ o ∧ o < i * d.n + cnt'
        · rw [if_pos hin, if_pos (by omega)]
        · rw [if_neg hin, if_neg (by omega)]

/-- C10: for every Dense matrix, every row `i < m` and every factor `c`,
the aliased call `add_rows(i, i, c)` is well-defined and deterministic: the
scaled source value is read before the destination is written in each column,
so every element `v` of row `i` becomes `v * (ONE + c)` and every element
outside row `i` is unchanged. -/
theorem add_rows_aliased_spec {T : Type} [NonAssocSemiring T] (d : Dense T)
    (h : d.data.length = d.m * d.n) (i : Nat) (hi : i < d.m) (c : T) :
    ∃ d' : Dense T, d.addRows i i c = some d' ∧
      d'.m = d.m ∧ d'.n = d.n ∧ d'.data.length = d.data.length ∧
      (∀ j, j < d.n →
        d'.get? i j = (d.get? i j).map (fun v => v * (1 + c)) ∧
        (d'.get? i j).isSome) ∧
      (∀ p q, p < d.m → q < d.n → p ≠ i → d'.get? p q = d.get? p q) := by
  obtain ⟨d', hrun, hm, hn, hlen, hget⟩ :=
    addRowsAux_self i c d.n d h hi (Nat.le_refl _)
  have hmapeq : (fun v : T => v + v * c) = (fun v : T => v * (1 + c)) := by
    funext v
    rw [mul_one_add]
  refine ⟨d', hrun, hm, hn, hlen, ?_, ?_⟩
  · intro j hj
    have hofs : j + i * d.n < d.data.length := by
      rw [h]; exact dense_offset_lt hi hj
    constructor
    · rw [Dense.get?, Dense.get?, hn, hget, if_pos (by omega), hmapeq]
    · rw [Dense.get?, hn, hget, if_pos (by omega), List.getElem?_eq_getElem hofs]
      rfl
  · intro p q hp hq hne
    rw [Dense.get?, Dense.get?, hn, hget,
      if_neg (row_offset_disjoint hq hne)]

/-- C10 witness: on `[[1,2],[8,10]]` with `i = 0`, `c = 3`, row 0 becomes
`[4, 8]` and row 1 is untouched. -/
theorem add_rows_aliased_spec_witness :
    ((Dense.mk [1, 2, 8, 10] 2 2 : Dense Int).data.length = 2 * 2 ∧ 0 < 2) ∧
    (∃ d' : Dense Int,
      (Dense.mk [1, 2, 8, 10] 2 2 : Dense Int).addRows 0 0 3 = some d' ∧
      d'.m = 2 ∧ d'.n = 2 ∧ d'.data.length = 4 ∧
      (∀ j, j < 2 →
        d'.get? 0 j =
          ((Dense.mk [1, 2, 8, 10] 2 2 : Dense Int).get? 0 j).map
            (fun v => v * (1 + 3)) ∧
        (d'.get? 0 j).isSome) ∧
      (∀ p q, p < 2 → q < 2 → p ≠ 0 →
        d'.get? p q = (Dense.mk [1, 2, 8, 10] 2 2 : Dense Int).get? p q)) :=
  ⟨⟨rfl, by decide⟩,
    add_rows_aliased_spec (Dense.mk [1, 2, 8, 10] 2 2) rfl 0 (by decide) 3⟩

/-! ## C6: horizontal concatenation -/

/-- One row of the concatenation loop: pushing row `i` of `a` then row `i` of
`b` succeeds and produces the juxtaposed row. -/
theorem concatenate_row {T : Type} (a b : Dense T)
    (ha : a.data.length = a.m * a.n) (hb : b.data.length = b.m * b.n)
    (hm : a.m = b.m) (i : Nat) (hi : i < a.m) :
    ∃ row : List T,
      (do
        let ra ← optMapRange (fun j => a.get? i j) a.n
        let rb ← optMapRange (fun j => b.get? i j) b.n
        pure (ra ++ rb)) = some row ∧
      row.length = a.n + b.n ∧
      (∀ j, j < a.n → row[j]? = a.get? i j ∧ (row[j]?).isSome) ∧
      (∀ j, j < b.n → row[a.n + j]? = b.get? i j ∧ (row[a.n + j]?).isSome) := by
  have hras : ∀ j, j < a.n → (a.get? i j).isSome := by
    intro j hj
    have : j + i * a.n < a.data.length := by rw [ha]; exact dense_offset_lt hi hj
    rw [Dense.get?, List.getElem?_eq_getElem this]
    rfl
  have hrbs : ∀ j, j < b.n → (b.get? i j).isSome := by
    intro j hj
    have : j + i * b.n < b.data.length := by
      rw [hb]; exact dense_offset_lt (hm ▸ hi) hj
    rw [Dense.get?, List.getElem?_eq_getElem this]
    rfl
  obtain ⟨ra, hra, hralen, hraget⟩ := optMapRange_exists _ a.n hras
  obtain ⟨rb, hrb, hrblen, hrbget⟩ := optMapRange_exists _ b.n hrbs
  refine ⟨ra ++ rb, by rw [hra, hrb]; rfl, by simp [hralen, hrblen], ?_, ?_⟩
  · intro j hj
    rw [List.getElem?_append_left (by omega), hraget j hj]
    exact ⟨rfl, hras j hj⟩
  · intro j hj
    rw [List.getElem?_append_right (by omega), hralen, Nat.add_sub_cancel_left,
      hrbget j hj]
    exact ⟨rfl, hrbs j hj⟩

/-- C6: `a.concatenate(b)` fails with `Incompatibility` exactly when
`a.m ≠ b.m`; otherwise it succeeds with a matrix of `a.m` rows and
`a.n + b.n` columns whose row `i` holds row `i` of `a` followed by row `i`
of `b`. -/
theorem concatenate_spec {T : Type} (a b : Dense T)
    (ha : a.data.length = a.m * a.n) (hb : b.data.length = b.m * b.n) :
    (a.m ≠ b.m →
      a.concatenate b = some (Except.error MatrixError.Incompatibility)) ∧
    (a.m = b.m → ∃ r : Dense T,
      a.concatenate b = some (Except.ok r) ∧
      r.m = a.m ∧ r.n = a.n + b.n ∧ r.data.length = a.m * (a.n + b.n) ∧
      ∀ i, i < a.m →
        (∀ j, j < a.n → r.get? i j = a.get? i j ∧ (r.get? i j).isSome) ∧
        (∀ j, j < b.n →
          r.get? i (a.n + j) = b.get? i j ∧ (r.get? i (a.n + j)).isSome)) := by
  constructor
  · intro hm
    rw [Dense.concatenate, if_neg hm]
  · intro hm
    have hrowsome : ∀ i, i < a.m → ((do
        let ra ← optMapRange (fun j => a.get? i j) a.n
        let rb ← optMapRange (fun j => b.get? i j) b.n
        pure (ra ++ rb)) : Option (List T)).isSome := by
      intro i hi
      obtain ⟨row, hrow, -⟩ := concatenate_row a b ha hb hm i hi
      rw [hrow]
      rfl
    obtain ⟨rows, hrows, hrowslen, hrowsget⟩ := optMapRange_exists _ a.m hrowsome
    have hrowchar : ∀ i, i < a.m → ∃ row : List T, rows[i]? = some row ∧
        row.length = a.n + b.n ∧
        (∀ j, j < a.n → row[j]? = a.get? i j ∧ (row[j]?).isSome) ∧
        (∀ j, j < b.n →
          row[a.n + j]? = b.get? i j ∧ (row[a.n + j]?).isSome) := by
      intro i hi
      obtain ⟨row, hrow, hl, h1, h2⟩ := concatenate_row a b ha hb hm i hi
      exact ⟨row, by rw [hrowsget i hi, hrow], hl, h1, h2⟩
    have huniform : ∀ l ∈ rows, l.length = a.n + b.n := by
      intro l hl
      obtain ⟨k, hk⟩ := List.mem_iff_getElem?.mp hl
      have hklt : k < a.m := by
        obtain ⟨hlt, -⟩ := List.getElem?_eq_some_iff.mp hk
        omega
      obtain ⟨row, hrow, hlen, -, -⟩ := hrowchar k hklt
      rw [hrow] at hk
      cases hk
      exact hlen
    refine ⟨⟨rows.flatten, a.m, a.n + b.n⟩, ?_, rfl, rfl, ?_, ?_⟩
    · rw [Dense.concatenate, if_pos hm, hrows]
      rfl
    · show rows.flatten.length = a.m * (a.n + b.n)
      have hrep : List.map List.length rows =
          List.replicate a.m (a.n + b.n) := by
        have h0 := List.eq_replicate_of_mem (a := a.n + b.n)
          (l := rows.map List.length)
          (fun x hx => by
            obtain ⟨l, hl, rfl⟩ := List.mem_map.mp hx
            exact huniform l hl)
        rwa [List.length_map, hrowslen] at h0
      rw [List.length_flatten, hrep, List.sum_replicate, smul_eq_mul]
    · intro i hi
      obtain ⟨row, hrow, hlen, h1, h2⟩ := hrowchar i hi
      constructor
      · intro j hj
        have : (⟨rows.flatten, a.m, a.n + b.n⟩ : Dense T).get? i j =
            rows.flatten[i * (a.n + b.n) + j]? := by
          rw [Dense.get?, Nat.add_comm j (i * (a.n + b.n))]
        rw [this, flatten_getElem?_uniform (a.n + b.n) rows i j huniform
          (by omega), hrow]
        exact h1 j hj
      · intro j hj
        have : (⟨rows.flatten, a.m, a.n + b.n⟩ : Dense T).get? i (a.n + j) =
            rows.flatten[i * (a.n + b.n) + (a.n + j)]? := by
          rw [Dense.get?, Nat.add_comm (a.n + j) (i * (a.n + b.n))]
        rw [this, flatten_getElem?_uniform (a.n + b.n) rows i (a.n + j)
          huniform (by omega), hrow]
        exact h2 j hj

/-- C6 witness: `[[1,2],[3,4]]` concatenated with `[[5],[6]]` gives
`[[1,2,5],[3,4,6]]`, matching the source's unit test. -/
theorem concatenate_spec_witness :
    ((Dense.mk [1, 2, 3, 4] 2 2 : Dense Int).data.length = 2 * 2 ∧
      (Dense.mk [5, 6] 2 1 : Dense Int).data.length = 2 * 1) ∧
    ((2 ≠ 2 →
      (Dense.mk [1, 2, 3, 4] 2 2 : Dense Int).concatenate
          (Dense.mk [5, 6] 2 1) =
        some (Except.error MatrixError.Incompatibility)) ∧
    (2 = 2 → ∃ r : Dense Int,
      (Dense.mk [1, 2, 3, 4] 2 2 : Dense Int).concatenate
          (Dense.mk [5, 6] 2 1) = some (Except.ok r) ∧
      r.m = 2 ∧ r.n = 2 + 1 ∧ r.data.length = 2 * (2 + 1) ∧
      ∀ i, i < 2 →
        (∀ j, j < 2 →
          r.get? i j = (Dense.mk [1, 2, 3, 4] 2 2 : Dense Int).get? i j ∧
          (r.get? i j).isSome) ∧
        (∀ j, j < 1 →
          r.get? i (2 + j) = (Dense.mk [5, 6] 2 1 : Dense Int).get? i j ∧
          (r.get? i (2 + j)).isSome))) :=
  ⟨⟨rfl, rfl⟩,
    concatenate_spec (Dense.mk [1, 2, 3, 4] 2 2) (Dense.mk [5, 6] 2 1) rfl rfl⟩

/-! ## C3: symmetric × dense multiplication -/

/-- On in-bounds cells the fallible inner `k` loop succeeds and computes the
accumulated sum `sumSD`. -/
theorem dotSD_eq {T : Type} [Zero T] [Add T] [Mul T] (s : Symmetric T)
    (d : Dense T) (hs : s.data.length = s.n * (s.n + 1) / 2)
    (hd : d.data.length = d.m * d.n) (heq : s.n = d.m) (i j : Nat)
    (hi : i < s.n) (hj : j < d.n) :
    dotSD s d i j = some (sumSD s d i j) := by
  rw [dotSD, sumSD]
  refine optFoldRange_eq _ _ 0 s.n ?_
  intro acc k hk
  have hb1 : symOffset i k < s.data.length := by
    rw [hs]; exact symOffset_lt hi hk
  have hb2 : j + k * d.n < d.data.length := by
    rw [hd]; exact dense_offset_lt (heq ▸ hk) hj
  rw [Symmetric.get?, Dense.get?, List.getElem?_eq_getElem hb1,
    List.getElem?_eq_getElem hb2]
  show some _ = some _
  rw [List.getD_eq_getElem?_getD, List.getD_eq_getElem?_getD,
    List.getElem?_eq_getElem hb1, List.getElem?_eq_getElem hb2]
  rfl

/-- C3: `&s * &d` fails with `Incompatibility` exactly when `s.n ≠ d.m`;
otherwise it succeeds with a Dense matrix of shape `s.n × d.n` whose cell
`(i, j)` is the `ZERO`-seeded accumulation of `s[[i, k]] * d[[k, j]]` over
`k in 0..s.n`. -/
theorem symDenseMul_spec {T : Type} [Zero T] [Add T] [Mul T] (s : Symmetric T)
    (d : Dense T) (hs : s.data.length = s.n * (s.n + 1) / 2)
    (hd : d.data.length = d.m * d.n) :
    (s.n ≠ d.m →
      symDenseMul s d = some (Except.error MatrixError.Incompatibility)) ∧
    (s.n = d.m → ∃ r : Dense T,
      symDenseMul s d = some (Except.ok r) ∧
      r.m = s.n ∧ r.n = d.n ∧ r.data.length = s.n * d.n ∧
      ∀ i j, i < s.n → j < d.n → r.get? i j = some (sumSD s d i j)) := by
  constructor
  · intro hne
    rw [symDenseMul, if_pos hne]
  · intro heq
    have hrowsome : ∀ i, i < s.n →
        (optMapRange (fun j => dotSD s d i j) d.n).isSome := by
      intro i hi
      obtain ⟨row, hrow, -, -⟩ := optMapRange_exists (fun j => dotSD s d i j) d.n
        (fun q hq => by
          show (dotSD s d i q).isSome = true
          rw [dotSD_eq s d hs hd heq i q hi hq]
          rfl)
      rw [hrow]
      rfl
    obtain ⟨rows, hrows, hrowslen, hrowsget⟩ := optMapRange_exists _ s.n hrowsome
    have hrowchar : ∀ i, i < s.n → ∃ row : List T, rows[i]? = some row ∧
        row.length = d.n ∧
        ∀ j, j < d.n → row[j]? = some (sumSD s d i j) := by
      intro i hi
      obtain ⟨row, hrow, hlen, hget⟩ := optMapRange_exists (fun j => dotSD s d i j) d.n
        (fun q hq => by
          show (dotSD s d i q).isSome = true
          rw [dotSD_eq s d hs hd heq i q hi hq]
          rfl)
      refine ⟨row, by rw [hrowsget i hi, hrow], hlen, ?_⟩
      intro j hj
      rw [hget j hj, dotSD_eq s d hs hd heq i j hi hj]
    have huniform : ∀ l ∈ rows, l.length = d.n := by
      intro l hl
      obtain ⟨k, hk⟩ := List.mem_iff_getElem?.mp hl
      have hklt : k < s.n := by
        obtain ⟨hlt, -⟩ := List.getElem?_eq_some_iff.mp hk
        omega
      obtain ⟨row, hrow, hlen, -⟩ := hrowchar k hklt
      rw [hrow] at hk
      cases hk
      exact hlen
    refine ⟨⟨rows.flatten, s.n, d.n⟩, ?_, rfl, rfl, ?_, ?_⟩
    · rw [symDenseMul, if_neg (by omega), hrows]
      rfl
    · show rows.flatten.length = s.n * d.n
      have hrep : List.map List.length rows = List.replicate s.n d.n := by
        have h0 := List.eq_replicate_of_mem (a := d.n)
          (l := rows.map List.length)
          (fun x hx => by
            obtain ⟨l, hl, rfl⟩ := List.mem_map.mp hx
            exact huniform l hl)
        rwa [List.length_map, hrowslen] at h0
      rw [List.length_flatten, hrep, List.sum_replicate, smul_eq_mul]
    · intro i j hi hj
      obtain ⟨row, hrow, hlen, hget⟩ := hrowchar i hi
      have hidx : (⟨rows.flatten, s.n, d.n⟩ : Dense T).get? i j =
          rows.flatten[i * d.n + j]? := by
        rw [Dense.get?, Nat.add_comm j (i * d.n)]
      rw [hidx, flatten_getElem?_uniform d.n rows i j huniform hj, hrow]
      exact hget j hj

/-- C3 witness: the source's unit test `symmat![1; 2, 4; 3, 5, 6] * mat![6; 7; 8]`,
a 3×3 symmetric times a 3×1 dense. -/
theorem symDenseMul_spec_witness :
    ((Symmetric.mk [1, 2, 4, 3, 5, 6] 3 : Symmetric Int).data.length =
        3 * (3 + 1) / 2 ∧
      (Dense.mk [6, 7, 8] 3 1 : Dense Int).data.length = 3 * 1) ∧
    ((3 ≠ 3 →
      symDenseMul (Symmetric.mk [1, 2, 4, 3, 5, 6] 3)
          (Dense.mk [6, 7, 8] 3 1 : Dense Int) =
        some (Except.error MatrixError.Incompatibility)) ∧
    (3 = 3 → ∃ r : Dense Int,
      symDenseMul (Symmetric.mk [1, 2, 4, 3, 5, 6] 3)
          (Dense.mk [6, 7, 8] 3 1 : Dense Int) = some (Except.ok r) ∧
      r.m = 3 ∧ r.n = 1 ∧ r.data.length = 3 * 1 ∧
      ∀ i j, i < 3 → j < 1 →
        r.get? i j = some (sumSD (Symmetric.mk [1, 2, 4, 3, 5, 6] 3)
          (Dense.mk [6, 7, 8] 3 1 : Dense Int) i j))) :=
  ⟨⟨by decide, rfl⟩,
    symDenseMul_spec (Symmetric.mk [1, 2, 4, 3, 5, 6] 3)
      (Dense.mk [6, 7, 8] 3 1) (by decide) rfl⟩

end NumbRs
